import Mathlib

/-!
# CustomHashAndSort-2MD3: hash set, quicksort and the word-matching pipeline

A shallow embedding of `src/CustomHashAndSort_2MD3.cpp`.

* A `std::string` is a finite sequence of bytes; `operator<` on strings compares
  bytes as unsigned values, lexicographically, a proper prefix being smaller.
  This is the order Mathlib puts on `List (Fin 256)`.
* `unsigned long` is 64 bits wide: every operation on the running hash is reduced
  modulo `2 ^ 64`. `char` is signed: a byte `b ≥ 128` widens to the `int` `b - 256`.
* The modulo by zero, an access outside the vector or the table, and the exhaustion
  of the fuel of a loop or recursion are results of type `Fault`; nothing is hidden
  behind a default value.
* The vector handed to the sort is a `Mem`: the elements together with a log of
  every index at which `vec[·]` has been evaluated.
* The indices of the sort are C `int`s, embedded in `Int`; they only move between
  `l - 1` and `h + 1`, so no wrap-around is modelled for them.
* The line counter and the table size are `int`s too: an increment of the counter
  beyond `2 ^ 31 - 1`, and a quotient `DATA_SIZE / LOAD_FACTOR` that does not fit an
  `int`, are faults. The conversion of the line count to `float` rounds, and is
  modelled.
-/

namespace CustomHashAndSort

/-- One `char` of a `std::string`, as its unsigned byte value. -/
abbrev Byte := Fin 256

/-- A `std::string`. -/
abbrev Token := List Byte

/-- The ways in which an execution can fail to produce a value. -/
inductive Fault where
  | divByZero
  | outOfBounds
  | intOverflow
  | outOfFuel
  deriving DecidableEq, Repr

deriving instance DecidableEq for Except

/-! ## HashTable -/

/-- The widening `int c : key` of a (signed) `char`. -/
def charToInt (b : Byte) : Int :=
  if b.val < 128 then (b.val : Int) else (b.val : Int) - 256

/-- Conversion of an `int` to `unsigned long` (value modulo `2 ^ 64`). -/
def toULong (c : Int) : Nat := (c % (2 : Int) ^ 64).toNat

/-- One round of the loop of `hash`: `hash = ((hash << 5) + hash) + c`. -/
def hashStep (hash : Nat) (b : Byte) : Nat :=
  ((((hash <<< 5) % 2 ^ 64 + hash) % 2 ^ 64) + toULong (charToInt b)) % 2 ^ 64

/-- The value of the local `hash` when the loop of `HashTable::hash` is left. -/
def digest (key : Token) : Nat := key.foldl hashStep 5381

/-- The class `HashTable`: `table[i]` is the chain of bucket `i`, first node first
(`NULL` is the empty chain), and `size` is the number of buckets. -/
structure HashTable where
  table : List (List Token)
  size : Nat
  deriving DecidableEq, Repr

/-- `HashTable::hash`: `int(hash % size)`; the modulo by `size = 0` is a fault. -/
def HashTable.hash (t : HashTable) (key : Token) : Except Fault Nat :=
  if t.size = 0 then .error .divByZero else .ok (digest key % t.size)

/-- The distance between neighbouring `float`s at the magnitude of `n`: `1` below
`2 ^ 24`, doubling with every further bit of `n`. The first argument bounds the
number of halvings; `8` covers every `n < 2 ^ 32`, hence every `int`. -/
def floatSpacing : Nat → Nat → Nat
  | 0, _ => 1
  | k + 1, n => if n < 2 ^ 24 then 1 else 2 * floatSpacing k (n / 2)

/-- Conversion of a non-negative `int` to `float`: round to nearest, ties to even,
with 24 significant bits. -/
def roundToFloat (n : Nat) : Nat :=
  let u := floatSpacing 8 n
  let q := n / u
  let r := n % u
  if 2 * r < u then q * u
  else if u < 2 * r then (q + 1) * u
  else if q % 2 = 0 then q * u
  else (q + 1) * u

/-- The constructor `HashTable(DATA_SIZE, LOAD_FACTOR)` at the only load factor the
program uses, `LOAD_FACTOR = 0.5`, for a non-negative `int DATA_SIZE`:
`size = int(DATA_SIZE / LOAD_FACTOR)`, the quotient being twice the `float` nearest to
`DATA_SIZE`. A quotient above the largest `int`, `2 ^ 31 - 1`, has no conversion to
`int`: that is a fault. All `size` chains start out `NULL`. -/
def HashTable.construct (DATA_SIZE : Nat) : Except Fault HashTable :=
  let quotient := 2 * roundToFloat DATA_SIZE
  if quotient < 2 ^ 31 then
    .ok { table := List.replicate quotient [], size := quotient }
  else .error .intOverflow

/-- `HashTable::insert`. -/
def HashTable.insert (t : HashTable) (key : Token) : Except Fault HashTable :=
  match t.hash key with
  | .error f => .error f
  | .ok i =>
    match t.table[i]? with
    | none => .error .outOfBounds
    | some chain =>
      if chain = [] then .ok { t with table := t.table.set i [key] }
      else .ok { t with table := t.table.set i (key :: chain) }

/-- The `while (cur != NULL)` loop of `HashTable::search` over one chain. -/
def searchChain (key : Token) : List Token → Bool
  | [] => false
  | k :: next => if k = key then true else searchChain key next

/-- `HashTable::search`. -/
def HashTable.search (t : HashTable) (key : Token) : Except Fault Bool :=
  match t.hash key with
  | .error f => .error f
  | .ok i =>
    match t.table[i]? with
    | none => .error .outOfBounds
    | some chain => .ok (searchChain key chain)

/-! ## The sort -/

/-- The vector being sorted, with the log of the indices at which an element has
been evaluated (most recent first). -/
structure Mem where
  vec : List Token
  log : List Int
  deriving DecidableEq, Repr

/-- Evaluation of `vec[i]`. -/
def Mem.read (m : Mem) (i : Int) : Except Fault (Token × Mem) :=
  if 0 ≤ i then
    match m.vec[i.toNat]? with
    | some x => .ok (x, { m with log := i :: m.log })
    | none => .error .outOfBounds
  else .error .outOfBounds

/-- The call `std::swap(vec[i], vec[j])`. -/
def Mem.swap (m : Mem) (i j : Int) : Except Fault Mem :=
  match m.read i with
  | .error f => .error f
  | .ok (a, m1) =>
    match m1.read j with
    | .error f => .error f
    | .ok (b, m2) => .ok { m2 with vec := (m2.vec.set i.toNat b).set j.toNat a }

/-- The first statement of the loop body of `partition`:
`if (vec[i] > p && vec[j] < p) std::swap(vec[i], vec[j]);`. -/
def exchange (p : Token) (i j : Int) (m : Mem) : Except Fault Mem :=
  match m.read i with
  | .error f => .error f
  | .ok (a, m1) =>
    if p < a then
      match m1.read j with
      | .error f => .error f
      | .ok (b, m2) => if b < p then m2.swap i j else .ok m2
    else .ok m1

/-- The second statement of the loop body: `if (vec[i] <= p) i++;`. -/
def advance (p : Token) (i : Int) (m : Mem) : Except Fault (Int × Mem) :=
  match m.read i with
  | .error f => .error f
  | .ok (a, m1) => .ok (if a ≤ p then i + 1 else i, m1)

/-- The third statement of the loop body: `if (vec[j] >= p) j--;`. -/
def retreat (p : Token) (j : Int) (m : Mem) : Except Fault (Int × Mem) :=
  match m.read j with
  | .error f => .error f
  | .ok (b, m1) => .ok (if p ≤ b then j - 1 else j, m1)

/-- The loop `while (i <= j) { ... }` of `partition`; one unit of fuel per test of
the loop condition. The value is the final `j` and the memory. -/
def partitionLoop (p : Token) : Nat → Int → Int → Mem → Except Fault (Int × Mem)
  | 0, _, _, _ => .error .outOfFuel
  | fuel + 1, i, j, m =>
    if i ≤ j then
      match exchange p i j m with
      | .error f => .error f
      | .ok m1 =>
        match advance p i m1 with
        | .error f => .error f
        | .ok (i1, m2) =>
          match retreat p j m2 with
          | .error f => .error f
          | .ok (j1, m3) => partitionLoop p fuel i1 j1 m3
    else .ok (j, m)

/-- The function `partition(l, h, vec)`. -/
def partition (fuel : Nat) (l h : Int) (m : Mem) : Except Fault (Int × Mem) :=
  match m.read l with
  | .error f => .error f
  | .ok (p, m1) =>
    match partitionLoop p fuel (l + 1) h m1 with
    | .error f => .error f
    | .ok (j, m2) =>
      match m2.swap l j with
      | .error f => .error f
      | .ok m3 => .ok (j, m3)

/-- The function `quickSort(l, h, vec)`; `fuel` bounds the depth of the recursion
and is handed to the loop of `partition`. -/
def quickSort : Nat → Int → Int → Mem → Except Fault Mem
  | 0, l, h, m => if l < h then .error .outOfFuel else .ok m
  | fuel + 1, l, h, m =>
    if l < h then
      match partition fuel l h m with
      | .error f => .error f
      | .ok (j, m1) =>
        match quickSort fuel l j m1 with
        | .error f => .error f
        | .ok m2 => quickSort fuel (j + 1) h m2
    else .ok m

/-! ## The pipeline `main` -/

/-- The loop `while (file1 >> word) hashTable.insert(word);`. -/
def insertAll (t : HashTable) : List Token → Except Fault HashTable
  | [] => .ok t
  | word :: rest =>
    match t.insert word with
    | .error f => .error f
    | .ok t1 => insertAll t1 rest

/-- The loop `while (file2 >> word) if (hashTable.search(word))
duplicateWords.push_back(word);`. -/
def collect (t : HashTable) : List Token → List Token → Except Fault (List Token)
  | [], duplicateWords => .ok duplicateWords
  | word :: rest, duplicateWords =>
    match t.search word with
    | .error f => .error f
    | .ok true => collect t rest (duplicateWords ++ [word])
    | .ok false => collect t rest duplicateWords

/-- The loop `while (std::getline(file1, line)) numWords++;` on the `int` counter
`numWords`: an increment beyond the largest `int` is a fault. -/
def countLines : List (List Token) → Nat → Except Fault Nat
  | [], numWords => .ok numWords
  | _ :: rest, numWords =>
    if numWords + 1 < 2 ^ 31 then countLines rest (numWords + 1) else .error .intOverflow

/-- The function `main` once the three files are open. `file1` is the first file as
its lines, each line as its whitespace-delimited words; `file2` is the second file
as its words. The value is the sequence of lines written to `out.txt`. -/
def main (fuel : Nat) (file1 : List (List Token)) (file2 : List Token) :
    Except Fault (List Token) :=
  match countLines file1 0 with
  | .error f => .error f
  | .ok numWords =>
    match HashTable.construct numWords with
    | .error f => .error f
    | .ok hashTable =>
      match insertAll hashTable file1.flatten with
      | .error f => .error f
      | .ok hashTable1 =>
        match collect hashTable1 file2 [] with
        | .error f => .error f
        | .ok duplicateWords =>
          match quickSort fuel 0 ((duplicateWords.length : Int) - 1)
              { vec := duplicateWords, log := [] } with
          | .error f => .error f
          | .ok m => .ok m.vec

/-! ## Vocabulary of the statements -/

/-- The elements of `v` at the positions `l, ..., h`. -/
def seg (v : List Token) (l h : Nat) : List Token := (v.drop l).take (h + 1 - l)

/-- The log of `m'` extends the log of `m` by indices between `l` and `h` only. -/
def LogWithin (m m' : Mem) (l h : Nat) : Prop :=
  ∃ ext : List Int, m'.log = ext ++ m.log ∧ ∀ x ∈ ext, (l : Int) ≤ x ∧ x ≤ (h : Int)

/-- The element at position `h` is at least every element at the positions `l..h`. -/
def TopMax (v : List Token) (l h : Nat) : Prop :=
  ∀ k x y, l ≤ k → k ≤ h → v[k]? = some x → v[h]? = some y → x ≤ y

/-- What a completed call `quickSort(l, h, vec)` has done to the memory. -/
def SortPost (l h : Nat) (m m' : Mem) : Prop :=
  m'.vec.length = m.vec.length ∧ List.Perm m'.vec m.vec ∧
  (∀ k, k < l ∨ h < k → m'.vec[k]? = m.vec[k]?) ∧
  List.Sorted (· ≤ ·) (seg m'.vec l h) ∧ LogWithin m m' l h

/-- The chain of bucket `i`, first node first. -/
def HashTable.chain (t : HashTable) (i : Nat) : List Token := (t.table[i]?).getD []

/-- The number of nodes stored in the table, all chains together. -/
def HashTable.entries (t : HashTable) : Nat := (t.table.map List.length).sum

/-- The byte `b` read as a signed quantity: bytes from `128` on count as `b - 256`. -/
def signedByteValue (b : Byte) : Int :=
  if 128 ≤ b.val then (b.val : Int) - 256 else (b.val : Int)

/-- The djb2 reference of the specification: start from `5381` and set
`h = (h * 33 + c) mod 2 ^ 64` for each character `c` in order. -/
def djb2Reference (s : Token) : Nat :=
  s.foldl (fun h b => (((h : Int) * 33 + signedByteValue b) % (2 : Int) ^ 64).toNat) 5381

/-! ## Lists: exchanging two positions, contiguous segments -/

theorem exch_length (v : List Token) (a b : Nat) (x y : Token) :
    ((v.set a x).set b y).length = v.length := by simp

theorem exch_perm_aux {α : Type} [DecidableEq α] (v : List α) (a b : Nat)
    (ha : a < v.length) (hb : b < v.length) :
    List.Perm ((v.set a v[b]).set b v[a]) v := by
  rw [List.perm_iff_count]
  intro t
  have h1 : 0 < List.count v[a] v := List.count_pos_iff.mpr (List.getElem_mem _)
  have h2 : 0 < List.count v[b] v := List.count_pos_iff.mpr (List.getElem_mem _)
  by_cases hab : a = b
  · subst hab
    rw [List.count_set _ _ _ _ (by simpa using ha), List.count_set _ _ _ _ ha]
    simp only [List.getElem_set_self]
    by_cases e : v[a] = t
    · subst e; simp
    · simp [e]
  · rw [List.count_set _ _ _ _ (by simpa using hb), List.count_set _ _ _ _ ha]
    rw [List.getElem_set_ne hab]
    by_cases e1 : v[a] = t <;> by_cases e2 : v[b] = t
    · simp [e1, e2]; rw [e1] at h1; omega
    · simp [e1, e2]; rw [e1] at h1; omega
    · simp [e1, e2]
    · simp [e1, e2]

theorem exch_perm (v : List Token) (a b : Nat) (ha : a < v.length) (hb : b < v.length) :
    List.Perm ((v.set a v[b]).set b v[a]) v := exch_perm_aux v a b ha hb

theorem exch_get_other (v : List Token) (a b k : Nat) (x y : Token) (hka : k ≠ a) (hkb : k ≠ b) :
    ((v.set a x).set b y)[k]? = v[k]? := by
  rw [List.getElem?_set_ne (Ne.symm hkb), List.getElem?_set_ne (Ne.symm hka)]

theorem exch_get_right (v : List Token) (a b : Nat) (x y : Token) (hb : b < v.length) :
    ((v.set a x).set b y)[b]? = some y := by
  rw [List.getElem?_set_self (by simpa using hb)]

theorem exch_get_left (v : List Token) (a b : Nat) (x y : Token) (ha : a < v.length)
    (hab : a ≠ b) : ((v.set a x).set b y)[a]? = some x := by
  rw [List.getElem?_set_ne (Ne.symm hab), List.getElem?_set_self ha]

theorem seg_getElem_opt (v : List Token) (l h k : Nat) :
    (seg v l h)[k]? = if k < h + 1 - l then v[l + k]? else none := by
  simp [seg, List.getElem?_take, List.getElem?_drop]

theorem mem_seg (v : List Token) (l h : Nat) (x : Token) :
    x ∈ seg v l h ↔ ∃ k, l ≤ k ∧ k ≤ h ∧ v[k]? = some x := by
  rw [List.mem_iff_getElem?]
  constructor
  · rintro ⟨n, hn⟩
    rw [seg_getElem_opt] at hn
    split at hn
    · exact ⟨l + n, by omega, by omega, hn⟩
    · cases hn
  · rintro ⟨k, h1, h2, h3⟩
    refine ⟨k - l, ?_⟩
    rw [seg_getElem_opt, if_pos (by omega)]
    rw [show l + (k - l) = k by omega]; exact h3

theorem seg_congr (v w : List Token) (l h : Nat)
    (hvw : ∀ k, l ≤ k → k ≤ h → w[k]? = v[k]?) : seg w l h = seg v l h := by
  apply List.ext_getElem?
  intro n
  rw [seg_getElem_opt, seg_getElem_opt]
  split
  · exact hvw _ (by omega) (by omega)
  · rfl

theorem seg_split (v : List Token) (l j h : Nat) (h1 : l ≤ j + 1) (h2 : j ≤ h) :
    seg v l h = seg v l j ++ seg v (j + 1) h := by
  unfold seg
  rw [show h + 1 - l = (j + 1 - l) + (h + 1 - (j + 1)) by omega, List.take_add,
    List.drop_drop, show l + (j + 1 - l) = j + 1 by omega]

theorem seg_full (v : List Token) (h : Nat) (hh : v.length ≤ h + 1) : seg v 0 h = v := by
  simp [seg, List.take_of_length_le hh]

theorem seg_decompose (v : List Token) (l h : Nat) (h1 : l ≤ h + 1) :
    v = v.take l ++ seg v l h ++ v.drop (h + 1) := by
  unfold seg
  rw [List.append_assoc]
  conv_lhs => rw [← List.take_append_drop l v]
  congr 1
  conv_lhs => rw [← List.take_append_drop (h + 1 - l) (v.drop l)]
  rw [List.drop_drop, show l + (h + 1 - l) = h + 1 by omega]

theorem seg_perm_of_frame (v w : List Token) (l h : Nat) (h1 : l ≤ h + 1)
    (hp : List.Perm w v) (hf : ∀ k, k < l ∨ h < k → w[k]? = v[k]?) :
    List.Perm (seg w l h) (seg v l h) := by
  have e1 : w.take l = v.take l := by
    apply List.ext_getElem?
    intro n
    simp only [List.getElem?_take]
    split
    · exact hf n (Or.inl (by omega))
    · rfl
  have e2 : w.drop (h + 1) = v.drop (h + 1) := by
    apply List.ext_getElem?
    intro n
    simp only [List.getElem?_drop]
    exact hf _ (Or.inr (by omega))
  have dv := seg_decompose v l h h1
  have dw := seg_decompose w l h h1
  rw [dv, dw, e1, e2] at hp
  rw [List.append_assoc, List.append_assoc, List.perm_append_left_iff,
    List.perm_append_right_iff] at hp
  exact hp


/-! ## Single steps of the sort -/

theorem LogWithin.refl (m : Mem) (l h : Nat) : LogWithin m m l h :=
  ⟨[], rfl, by simp⟩

theorem LogWithin.of_log_eq {m m' : Mem} (l h : Nat) (e : m'.log = m.log) :
    LogWithin m m' l h := ⟨[], by simpa using e, by simp⟩

theorem LogWithin.trans {m1 m2 m3 : Mem} {l h : Nat} (a : LogWithin m1 m2 l h)
    (b : LogWithin m2 m3 l h) : LogWithin m1 m3 l h := by
  obtain ⟨e1, h1, g1⟩ := a
  obtain ⟨e2, h2, g2⟩ := b
  refine ⟨e2 ++ e1, by rw [h2, h1, List.append_assoc], ?_⟩
  intro x hx
  rcases List.mem_append.mp hx with hx | hx
  · exact g2 x hx
  · exact g1 x hx

theorem LogWithin.mono {m m' : Mem} {l h l' h' : Nat} (a : LogWithin m m' l h)
    (hl : l' ≤ l) (hh : h ≤ h') : LogWithin m m' l' h' := by
  obtain ⟨e, h1, g⟩ := a
  refine ⟨e, h1, fun x hx => ?_⟩
  have := g x hx
  omega

theorem LogWithin.push {m m' : Mem} {l h : Nat} (k : Nat) (hl : l ≤ k) (hh : k ≤ h)
    (e : m'.log = (k : Int) :: m.log) : LogWithin m m' l h := by
  refine ⟨[(k : Int)], by simpa using e, ?_⟩
  intro x hx
  simp at hx
  omega

theorem read_ok (m : Mem) (k : Nat) (hk : k < m.vec.length) :
    m.read (k : Int) = .ok (m.vec[k], { vec := m.vec, log := (k : Int) :: m.log }) := by
  simp [Mem.read, List.getElem?_eq_getElem hk]

theorem swap_ok (m : Mem) (a b : Nat) (ha : a < m.vec.length) (hb : b < m.vec.length) :
    m.swap (a : Int) (b : Int) =
      .ok { vec := (m.vec.set a m.vec[b]).set b m.vec[a],
            log := (b : Int) :: (a : Int) :: m.log } := by
  simp [Mem.swap, read_ok m a ha, read_ok ⟨m.vec, (a : Int) :: m.log⟩ b hb]

theorem exchange_ok (p : Token) (m : Mem) (i j : Nat) (hi : i < m.vec.length)
    (hj : j < m.vec.length) :
    exchange p (i : Int) (j : Int) m =
      .ok (if p < m.vec[i] then
            (if m.vec[j] < p then
              { vec := (m.vec.set i m.vec[j]).set j m.vec[i],
                log := (j : Int) :: (i : Int) :: (j : Int) :: (i : Int) :: m.log }
            else { vec := m.vec, log := (j : Int) :: (i : Int) :: m.log })
          else { vec := m.vec, log := (i : Int) :: m.log }) := by
  unfold exchange
  rw [read_ok m i hi]
  by_cases h1 : p < m.vec[i]
  · simp only [h1, if_true]
    rw [read_ok ⟨m.vec, (i : Int) :: m.log⟩ j hj]
    by_cases h2 : m.vec[j] < p
    · simp only [h2, if_true]
      exact swap_ok ⟨m.vec, (j : Int) :: (i : Int) :: m.log⟩ i j hi hj
    · simp only [h2, if_false]
  · simp only [h1, if_false]

theorem advance_ok (p : Token) (m : Mem) (i : Nat) (hi : i < m.vec.length) :
    advance p (i : Int) m =
      .ok (((if m.vec[i] ≤ p then i + 1 else i : Nat) : Int),
           { vec := m.vec, log := (i : Int) :: m.log }) := by
  unfold advance
  rw [read_ok m i hi]
  by_cases h1 : m.vec[i] ≤ p <;> simp [h1]

theorem retreat_ok (p : Token) (m : Mem) (j : Nat) (hj : j < m.vec.length) (h1 : 1 ≤ j) :
    retreat p (j : Int) m =
      .ok (((if p ≤ m.vec[j] then j - 1 else j : Nat) : Int),
           { vec := m.vec, log := (j : Int) :: m.log }) := by
  unfold retreat
  rw [read_ok m j hj]
  by_cases h2 : p ≤ m.vec[j]
  · simp only [h2, if_true]
    rw [Nat.cast_sub h1]; rfl
  · simp only [h2, if_false]


theorem loop_tail (p : Token) (fuel i j : Nat) (m1 : Mem) (hi : i < m1.vec.length)
    (hj : j < m1.vec.length) (hj1 : 1 ≤ j) :
    (match advance p (i : Int) m1 with
      | Except.error f => Except.error f
      | Except.ok (i1, m2) =>
        match retreat p (j : Int) m2 with
        | Except.error f => Except.error f
        | Except.ok (j1, m3) => partitionLoop p fuel i1 j1 m3) =
      partitionLoop p fuel ((if m1.vec[i] ≤ p then i + 1 else i : Nat) : Int)
        ((if p ≤ m1.vec[j] then j - 1 else j : Nat) : Int)
        { vec := m1.vec, log := (j : Int) :: (i : Int) :: m1.log } := by
  rw [advance_ok p m1 i hi]
  simp only []
  rw [retreat_ok p ⟨m1.vec, (i : Int) :: m1.log⟩ j hj hj1]

theorem loop_step (p : Token) (fuel i j : Nat) (m : Mem) (hij : i ≤ j) (h1 : 1 ≤ i)
    (hj : j < m.vec.length) :
    ∃ (i1 j1 : Nat) (m3 : Mem),
      partitionLoop p (fuel + 1) (i : Int) (j : Int) m =
        partitionLoop p fuel (i1 : Int) (j1 : Int) m3 ∧
      m3.vec.length = m.vec.length ∧ List.Perm m3.vec m.vec ∧
      (∀ k, k ≠ i → k ≠ j → m3.vec[k]? = m.vec[k]?) ∧
      LogWithin m m3 i j ∧
      i ≤ i1 ∧ i1 ≤ i + 1 ∧ j1 ≤ j ∧ j ≤ j1 + 1 ∧ (i1 = i + 1 ∨ j1 + 1 = j) ∧
      (i1 = i + 1 → ∀ x, m3.vec[i]? = some x → x ≤ p) ∧
      (j1 + 1 = j → ∀ x, m3.vec[j]? = some x → p ≤ x) ∧
      ((∀ x, m.vec[j]? = some x → p ≤ x) → j1 + 1 = j) := by
  have hi : i < m.vec.length := by omega
  have hcond : ((i : Int) ≤ (j : Int)) := by omega
  have hj1 : 1 ≤ j := by omega
  have hlog : ∀ (m3 : Mem) (ext : List Int), m3.log = ext ++ m.log →
      (∀ x ∈ ext, x = (i : Int) ∨ x = (j : Int)) → LogWithin m m3 i j := by
    intro m3 ext e hx
    refine ⟨ext, e, fun x hxe => ?_⟩
    rcases hx x hxe with r | r <;> omega
  rw [partitionLoop]
  simp only [hcond, if_true]
  rw [exchange_ok p m i j hi hj]
  by_cases c1 : p < m.vec[i]
  · by_cases c2 : m.vec[j] < p
    · simp only [c1, c2, if_true]
      have hne : i ≠ j := by
        rintro rfl
        exact lt_asymm c1 c2
      rw [loop_tail p fuel i j _ (by simpa using hi) (by simpa using hj) hj1]
      have gi : ((m.vec.set i m.vec[j]).set j m.vec[i])[i]? = some m.vec[j] :=
        exch_get_left _ _ _ _ _ hi hne
      have gj : ((m.vec.set i m.vec[j]).set j m.vec[i])[j]? = some m.vec[i] :=
        exch_get_right _ _ _ _ _ hj
      have hi2 : i < ((m.vec.set i m.vec[j]).set j m.vec[i]).length := by simpa using hi
      have hj2 : j < ((m.vec.set i m.vec[j]).set j m.vec[i]).length := by simpa using hj
      have ei : ((m.vec.set i m.vec[j]).set j m.vec[i])[i] = m.vec[j] := by
        rw [List.getElem_eq_iff]; exact gi
      have ej : ((m.vec.set i m.vec[j]).set j m.vec[i])[j] = m.vec[i] := by
        rw [List.getElem_eq_iff]; exact gj
      simp only [ei, ej, le_of_lt c1, le_of_lt c2, if_true]
      refine ⟨i + 1, j - 1, _, rfl, by simp, exch_perm _ _ _ hi hj, ?_, ?_, by omega, by omega,
        by omega, by omega, Or.inl rfl, ?_, ?_, fun _ => by omega⟩
      · intro k hki hkj
        exact exch_get_other _ _ _ _ _ _ hki hkj
      · exact hlog _ [(j : Int), (i : Int), (j : Int), (i : Int), (j : Int), (i : Int)]
          (by simp) (by simp)
      · intro _ x hx
        rw [gi] at hx; cases hx; exact le_of_lt c2
      · intro _ x hx
        rw [gj] at hx; cases hx; exact le_of_lt c1
    · simp only [c1, c2, if_true, if_false]
      rw [loop_tail p fuel i j ⟨m.vec, (j : Int) :: (i : Int) :: m.log⟩ hi hj hj1]
      have c2' : p ≤ m.vec[j] := not_lt.mp c2
      simp only [c2', if_true]
      refine ⟨_, j - 1, _, rfl, rfl, List.Perm.refl _, fun _ _ _ => rfl, ?_, ?_, ?_, by omega,
        by omega, Or.inr (by omega), ?_, ?_, fun _ => by omega⟩
      · exact hlog _ [(j : Int), (i : Int), (j : Int), (i : Int)] (by simp) (by simp)
      · split <;> omega
      · split <;> omega
      · intro e x hx
        rw [List.getElem?_eq_getElem hi] at hx; cases hx
        by_contra hc
        rw [if_neg hc] at e; omega
      · intro _ x hx
        rw [List.getElem?_eq_getElem hj] at hx; cases hx; exact c2'
  · simp only [c1, if_false]
    rw [loop_tail p fuel i j ⟨m.vec, (i : Int) :: m.log⟩ hi hj hj1]
    have c1' : m.vec[i] ≤ p := not_lt.mp c1
    simp only [c1', if_true]
    refine ⟨i + 1, _, _, rfl, rfl, List.Perm.refl _, fun _ _ _ => rfl, ?_, by omega, by omega,
      ?_, ?_, Or.inl rfl, ?_, ?_, ?_⟩
    · exact hlog _ [(j : Int), (i : Int), (i : Int)] (by simp) (by simp)
    · split <;> omega
    · split <;> omega
    · intro _ x hx
      rw [List.getElem?_eq_getElem hi] at hx; cases hx; exact c1'
    · intro e x hx
      rw [List.getElem?_eq_getElem hj] at hx; cases hx
      by_contra hc
      rw [if_neg hc] at e; omega
    · intro hx
      rw [if_pos (hx _ (List.getElem?_eq_getElem hj))]; omega


/-! ## The loop of `partition` and `partition` itself -/

theorem partitionLoop_spec (p : Token) (l h : Nat) :
    ∀ (fuel i j : Nat) (m : Mem), l + 1 ≤ i → l ≤ j → j ≤ h → h < m.vec.length →
      1 ≤ fuel → j + 2 ≤ fuel + i →
      (∀ k x, l < k → k < i → m.vec[k]? = some x → x ≤ p) →
      (∀ k x, j < k → k ≤ h → m.vec[k]? = some x → p ≤ x) →
      ∃ (j' : Nat) (m' : Mem),
        partitionLoop p fuel (i : Int) (j : Int) m = .ok ((j' : Int), m') ∧
        l ≤ j' ∧ j' ≤ j ∧ m'.vec.length = m.vec.length ∧ List.Perm m'.vec m.vec ∧
        (∀ k, k ≤ l ∨ h < k → m'.vec[k]? = m.vec[k]?) ∧
        (∀ k x, l < k → k ≤ j' → m'.vec[k]? = some x → x ≤ p) ∧
        (∀ k x, j' < k → k ≤ h → m'.vec[k]? = some x → p ≤ x) ∧
        LogWithin m m' (l + 1) h ∧
        (i ≤ j → (∀ x, m.vec[j]? = some x → p ≤ x) → j' < j) := by
  intro fuel
  induction fuel with
  | zero => intro i j m _ _ _ _ h1; omega
  | succ fuel ih =>
    intro i j m hli hlj hjh hh _ hfuel hL hR
    by_cases hij : i ≤ j
    · obtain ⟨i1, j1, m3, hrun, hlen, hperm, hsame, hlog, a1, a2, a3, a4, a5, a6, a7, a8⟩ :=
        loop_step p fuel i j m hij (by omega) (by omega)
      have hL3 : ∀ k x, l < k → k < i1 → m3.vec[k]? = some x → x ≤ p := by
        intro k x hk1 hk2 hx
        by_cases hki : k = i
        · subst hki
          exact a6 (by omega) x hx
        · rw [hsame k hki (by omega)] at hx
          exact hL k x hk1 (by omega) hx
      have hR3 : ∀ k x, j1 < k → k ≤ h → m3.vec[k]? = some x → p ≤ x := by
        intro k x hk1 hk2 hx
        by_cases hkj : k = j
        · subst hkj
          exact a7 (by omega) x hx
        · rw [hsame k (by omega) hkj] at hx
          exact hR k x (by omega) hk2 hx
      obtain ⟨j', m', hrun', b1, b2, b3, b4, b5, b6, b7, b8, _⟩ :=
        ih i1 j1 m3 (by omega) (by omega) (by omega) (by omega) (by omega) (by omega) hL3 hR3
      refine ⟨j', m', by rw [hrun, hrun'], b1, by omega, by omega, b4.trans hperm, ?_, b6, b7,
        (hlog.mono (by omega) (by omega)).trans b8, ?_⟩
      · intro k hk
        rw [b5 k hk, hsame k (by omega) (by omega)]
      · intro _ hx
        have := a8 hx
        omega
    · have hcond : ¬ ((i : Int) ≤ (j : Int)) := by omega
      refine ⟨j, m, ?_, hlj, le_refl _, rfl, List.Perm.refl _, fun _ _ => rfl, ?_, hR,
        LogWithin.refl _ _ _, fun c => absurd c hij⟩
      · rw [partitionLoop]; simp only [hcond, if_false]
      · intro k x hk1 hk2 hx
        exact hL k x hk1 (by omega) hx

/-- What `partition(l, h, vec)` achieves on an in-bounds range `l < h`. -/
theorem partition_spec (fuel l h : Nat) (m : Mem) (p : Token) (hlh : l < h)
    (hh : h < m.vec.length) (hfuel : h + 1 ≤ fuel + l) (hp : m.vec[l]? = some p) :
    ∃ (j : Nat) (m' : Mem),
      partition fuel (l : Int) (h : Int) m = .ok ((j : Int), m') ∧
      l ≤ j ∧ j ≤ h ∧ m'.vec.length = m.vec.length ∧ List.Perm m'.vec m.vec ∧
      (∀ k, k < l ∨ h < k → m'.vec[k]? = m.vec[k]?) ∧
      m'.vec[j]? = some p ∧
      (∀ k x, l ≤ k → k < j → m'.vec[k]? = some x → x ≤ p) ∧
      (∀ k x, j < k → k ≤ h → m'.vec[k]? = some x → p ≤ x) ∧
      LogWithin m m' l h ∧
      ((∀ x, m.vec[h]? = some x → p ≤ x) → j < h) := by
  have hl : l < m.vec.length := by omega
  have hpl : m.vec[l] = p := by
    rw [List.getElem?_eq_getElem hl] at hp; exact Option.some.inj hp
  obtain ⟨j, m2, hrun, b1, b2, b3, b4, b5, b6, b7, b8, b9⟩ :=
    partitionLoop_spec p l h fuel (l + 1) h ⟨m.vec, (l : Int) :: m.log⟩ (le_refl _) (by omega)
      (le_refl _) hh (by omega) (by omega) (fun k x h1 h2 => by omega) (fun k x h1 h2 => by omega)
  have hj2 : j < m2.vec.length := by rw [b3]; show j < m.vec.length; omega
  have hl2 : l < m2.vec.length := by rw [b3]; exact hl
  have e2l : m2.vec[l] = p := by
    have := b5 l (Or.inl (le_refl _))
    rw [List.getElem?_eq_getElem hl2] at this
    rw [← hpl]
    have h3 : m.vec[l]? = some m.vec[l] := List.getElem?_eq_getElem hl
    exact Option.some.inj (this.trans h3)
  refine ⟨j, ⟨(m2.vec.set l m2.vec[j]).set j m2.vec[l], (j : Int) :: (l : Int) :: m2.log⟩,
    ?_, b1, by omega, ?_, ?_, ?_, ?_, ?_, ?_, ?_, ?_⟩
  · unfold partition
    rw [read_ok m l hl, hpl]
    simp only []
    have hc : ((l : Int) + 1) = ((l + 1 : Nat) : Int) := by push_cast; rfl
    rw [hc, hrun]
    simp only []
    rw [swap_ok m2 l j hl2 hj2]
  · simp only [List.length_set]; exact b3
  · exact (exch_perm m2.vec l j hl2 hj2).trans b4
  · intro k hk
    rw [exch_get_other _ _ _ _ _ _ (by omega) (by omega)]
    exact b5 k (by omega)
  · rw [exch_get_right _ _ _ _ _ hj2, e2l]
  · intro k x hk1 hk2 hx
    by_cases hkl : k = l
    · subst hkl
      rw [exch_get_left _ _ _ _ _ hl2 (by omega)] at hx
      cases hx
      exact b6 j _ (by omega) (le_refl _) (List.getElem?_eq_getElem hj2)
    · rw [exch_get_other _ _ _ _ _ _ hkl (by omega)] at hx
      exact b6 k x (by omega) (by omega) hx
  · intro k x hk1 hk2 hx
    rw [exch_get_other _ _ _ _ _ _ (by omega) (by omega)] at hx
    exact b7 k x hk1 hk2 hx
  · refine LogWithin.trans (LogWithin.push l (le_refl _) (by omega) rfl)
      (LogWithin.trans (b8.mono (by omega) (le_refl _)) ?_)
    exact ⟨[(j : Int), (l : Int)], rfl, by intro x hx; simp at hx; omega⟩
  · intro hx
    have := b9 (by omega) hx
    omega


/-! ## The recursion of `quickSort` -/

theorem seg_sorted_of_ge (v : List Token) (l h : Nat) (hlh : h ≤ l) :
    List.Sorted (· ≤ ·) (seg v l h) := by
  have hlen : (seg v l h).length ≤ 1 := by
    simp only [seg, List.length_take, List.length_drop]; omega
  match hs : seg v l h, hlen with
  | [], _ => exact List.sorted_nil
  | [a], _ => exact List.sorted_singleton a
  | _ :: _ :: _, hl => simp at hl

theorem quickSort_base (fuel : Nat) (l h : Int) (m : Mem) (hlh : ¬ l < h) :
    quickSort fuel l h m = .ok m := by
  cases fuel <;> simp [quickSort, hlh]

theorem quickSort_spec :
    ∀ (fuel l h : Nat) (m : Mem), h < m.vec.length →
      (2 * (h - l) + 2 ≤ fuel ∨ (2 * (h - l) + 1 ≤ fuel ∧ TopMax m.vec l h)) →
      ∃ m', quickSort fuel (l : Int) (h : Int) m = .ok m' ∧ SortPost l h m m' := by
  intro fuel
  induction fuel with
  | zero => intro l h m _ hf; omega
  | succ f ih =>
    intro l h m hh hf
    by_cases hlh : l < h
    · have hl : l < m.vec.length := by omega
      have hcond : (l : Int) < (h : Int) := by omega
      obtain ⟨j, m1, hrun1, p1, p2, p3, p4, p5, p6, p7, p8, p9, p10⟩ :=
        partition_spec f l h m m.vec[l] hlh hh (by omega) (List.getElem?_eq_getElem hl)
      have hjh : TopMax m.vec l h → j < h := by
        intro ht
        apply p10
        intro x hx
        exact ht l _ x (le_refl _) (by omega) (List.getElem?_eq_getElem hl) hx
      have hle : ∀ k x, l ≤ k → k ≤ j → m1.vec[k]? = some x → x ≤ m.vec[l] := by
        intro k x hk1 hk2 hx
        by_cases hkj : k = j
        · subst hkj
          rw [p6] at hx; cases hx; exact le_refl _
        · exact p7 k x hk1 (by omega) hx
      have hleft : 2 * (j - l) + 2 ≤ f ∨ (2 * (j - l) + 1 ≤ f ∧ TopMax m1.vec l j) := by
        by_cases hj : j < h
        · left; omega
        · have hjeq : j = h := by omega
          right
          refine ⟨?_, ?_⟩
          · rcases hf with hf | ⟨_, ht⟩
            · omega
            · exact absurd (hjh ht) hj
          · intro k x y hk1 hk2 hx hy
            rw [p6] at hy; cases hy
            exact hle k x hk1 hk2 hx
      obtain ⟨m2, hrun2, q1, q2, q3, q4, q5⟩ := ih l j m1 (by omega) hleft
      obtain ⟨m3, hrun3, r1, r2, r3, r4, r5⟩ :=
        ih (j + 1) h m2 (by omega) (Or.inl (by omega))
      refine ⟨m3, ?_, by omega, (r2.trans q2).trans p4, ?_, ?_, ?_⟩
      · rw [quickSort]
        simp only [hcond, if_true]
        rw [hrun1]
        simp only []
        rw [hrun2]
        simp only []
        have hc : ((j : Int) + 1) = ((j + 1 : Nat) : Int) := by push_cast; rfl
        rw [hc, hrun3]
      · intro k hk
        rw [r3 k (by omega), q3 k (by omega), p5 k hk]
      · rw [seg_split m3.vec l j h (by omega) p2]
        have e1 : seg m3.vec l j = seg m2.vec l j :=
          seg_congr _ _ _ _ (fun k _ hk2 => r3 k (Or.inl (by omega)))
        have e2 : seg m2.vec (j + 1) h = seg m1.vec (j + 1) h :=
          seg_congr _ _ _ _ (fun k hk1 _ => q3 k (Or.inr (by omega)))
        have s1 : List.Perm (seg m2.vec l j) (seg m1.vec l j) :=
          seg_perm_of_frame _ _ _ _ (by omega) q2 q3
        have s2 : List.Perm (seg m3.vec (j + 1) h) (seg m2.vec (j + 1) h) :=
          seg_perm_of_frame _ _ _ _ (by omega) r2 r3
        rw [e1]
        unfold List.Sorted
        rw [List.pairwise_append]
        refine ⟨q4, r4, ?_⟩
        intro a ha b hb
        have ha1 : a ≤ m.vec[l] := by
          obtain ⟨k, hk1, hk2, hk3⟩ := (mem_seg _ _ _ _).mp (s1.mem_iff.mp ha)
          exact hle k a hk1 hk2 hk3
        have hb1 : m.vec[l] ≤ b := by
          have := s2.mem_iff.mp hb
          rw [e2] at this
          obtain ⟨k, hk1, hk2, hk3⟩ := (mem_seg _ _ _ _).mp this
          exact p8 k b (by omega) hk2 hk3
        exact le_trans ha1 hb1
      · exact (p9.trans (q5.mono (le_refl _) p2)).trans (r5.mono (by omega) (le_refl _))
    · have hcond : ¬ ((l : Int) < (h : Int)) := by omega
      refine ⟨m, quickSort_base _ _ _ _ hcond, rfl, List.Perm.refl _, fun _ _ => rfl,
        seg_sorted_of_ge _ _ _ (by omega), LogWithin.refl _ _ _⟩


/-! ## The hash function and the table size -/

theorem step_arith_gen (M h : Nat) (c : Int) (hM : 0 < M) :
    ((h * 32 % M + h) % M + (c % (M : Int)).toNat) % M =
      (((h : Int) * 33 + c) % (M : Int)).toNat := by
  have hM' : (M : Int) ≠ 0 := by omega
  apply Int.ofNat.inj
  rw [Int.ofNat_eq_coe, Int.ofNat_eq_coe, Int.toNat_of_nonneg (Int.emod_nonneg _ hM')]
  push_cast
  rw [Int.toNat_of_nonneg (Int.emod_nonneg _ hM')]
  rw [Int.add_emod_emod, Int.emod_add_emod, add_assoc, Int.emod_add_emod]
  congr 1
  ring

theorem step_arith (h : Nat) (c : Int) :
    ((h * 2 ^ 5 % 2 ^ 64 + h) % 2 ^ 64 + (c % (2 : Int) ^ 64).toNat) % 2 ^ 64 =
      (((h : Int) * 33 + c) % (2 : Int) ^ 64).toNat := by
  have := step_arith_gen (2 ^ 64) h c (by norm_num)
  simpa using this

theorem charToInt_eq (b : Byte) : charToInt b = signedByteValue b := by
  unfold charToInt signedByteValue
  split_ifs <;> omega

theorem hashStep_eq (h : Nat) (b : Byte) :
    hashStep h b = (((h : Int) * 33 + signedByteValue b) % (2 : Int) ^ 64).toNat := by
  unfold hashStep toULong
  rw [Nat.shiftLeft_eq, charToInt_eq]
  exact step_arith h _

theorem hashStep_lt (h : Nat) (b : Byte) : hashStep h b < 2 ^ 64 := by
  unfold hashStep
  exact Nat.mod_lt _ (by norm_num)

theorem foldl_hashStep_eq (s : Token) (h : Nat) :
    s.foldl hashStep h =
      s.foldl (fun h b => (((h : Int) * 33 + signedByteValue b) % (2 : Int) ^ 64).toNat) h := by
  induction s generalizing h with
  | nil => rfl
  | cons b s ih => simp only [List.foldl_cons, hashStep_eq, ih]

theorem foldl_hashStep_lt (s : Token) (h : Nat) (hh : h < 2 ^ 64) :
    s.foldl hashStep h < 2 ^ 64 := by
  induction s generalizing h with
  | nil => exact hh
  | cons b s ih => exact ih _ (hashStep_lt h b)

theorem digest_lt (s : Token) : digest s < 2 ^ 64 :=
  foldl_hashStep_lt s 5381 (by norm_num)

theorem hash_ok (t : HashTable) (key : Token) (hs : 1 ≤ t.size) :
    t.hash key = .ok (digest key % t.size) := by
  unfold HashTable.hash
  rw [if_neg (by omega)]

theorem roundToFloat_small (n : Nat) (hn : n < 2 ^ 24) : roundToFloat n = n := by
  have : floatSpacing 8 n = 1 := by
    unfold floatSpacing; rw [if_pos hn]
  unfold roundToFloat
  simp [this, Nat.mod_one]

theorem floatSpacing_cases (n : Nat) (h : n < 2 ^ 30) :
    (n < 2 ^ 24 ∧ floatSpacing 8 n = 1) ∨ (2 ^ 24 ≤ n ∧ n < 2 ^ 25 ∧ floatSpacing 8 n = 2) ∨
    (2 ^ 25 ≤ n ∧ n < 2 ^ 26 ∧ floatSpacing 8 n = 4) ∨
    (2 ^ 26 ≤ n ∧ n < 2 ^ 27 ∧ floatSpacing 8 n = 8) ∨
    (2 ^ 27 ≤ n ∧ n < 2 ^ 28 ∧ floatSpacing 8 n = 16) ∨
    (2 ^ 28 ≤ n ∧ n < 2 ^ 29 ∧ floatSpacing 8 n = 32) ∨
    (2 ^ 29 ≤ n ∧ n < 2 ^ 30 ∧ floatSpacing 8 n = 64) := by
  simp only [floatSpacing]
  split_ifs <;> omega

theorem roundToFloat_lt (n : Nat) (h : n < 1073741792) : roundToFloat n < 2 ^ 30 := by
  unfold roundToFloat
  simp only []
  rcases floatSpacing_cases n (by omega) with ⟨h1, e⟩ | ⟨h1, h2, e⟩ | ⟨h1, h2, e⟩ | ⟨h1, h2, e⟩ |
    ⟨h1, h2, e⟩ | ⟨h1, h2, e⟩ | ⟨h1, h2, e⟩ <;> rw [e] <;> split_ifs <;> omega

theorem construct_ok (n : Nat) (h : 2 * roundToFloat n < 2 ^ 31) :
    HashTable.construct n =
      .ok { table := List.replicate (2 * roundToFloat n) [], size := 2 * roundToFloat n } := by
  unfold HashTable.construct
  simp only []
  rw [if_pos h]

theorem construct_of_lt (n : Nat) (h : n < 1073741792) :
    HashTable.construct n =
      .ok { table := List.replicate (2 * roundToFloat n) [], size := 2 * roundToFloat n } :=
  construct_ok n (by have := roundToFloat_lt n h; omega)

theorem insert_ok (t : HashTable) (key : Token) (hs : 1 ≤ t.size)
    (hl : t.table.length = t.size) :
    t.insert key =
      .ok { table := t.table.set (digest key % t.size) (key :: t.chain (digest key % t.size)),
            size := t.size } := by
  have hi : digest key % t.size < t.table.length := by
    rw [hl]; exact Nat.mod_lt _ (by omega)
  unfold HashTable.insert HashTable.chain
  rw [hash_ok t key hs]
  simp only [List.getElem?_eq_getElem hi, Option.getD_some]
  split_ifs with hc
  · rw [hc]
  · rfl

theorem chain_insert (t : HashTable) (key : Token) (i : Nat) (hs : 1 ≤ t.size)
    (hl : t.table.length = t.size) :
    HashTable.chain
        { table := t.table.set (digest key % t.size) (key :: t.chain (digest key % t.size)),
          size := t.size } i =
      if digest key % t.size = i then key :: t.chain i else t.chain i := by
  have hi : digest key % t.size < t.table.length := by
    rw [hl]; exact Nat.mod_lt _ (by omega)
  unfold HashTable.chain
  simp only [List.getElem?_set]
  split_ifs with h1
  · subst h1; simp
  · rfl

theorem insertAll_spec (toks : List Token) :
    ∀ t : HashTable, 1 ≤ t.size → t.table.length = t.size →
      ∃ t', insertAll t toks = .ok t' ∧ t'.size = t.size ∧ t'.table.length = t.size ∧
        ∀ i, t'.chain i =
          (toks.filter (fun w => decide (digest w % t.size = i))).reverse ++ t.chain i := by
  induction toks with
  | nil => intro t _ hl; exact ⟨t, rfl, rfl, hl, fun i => by simp⟩
  | cons w ws ih =>
    intro t hs hl
    obtain ⟨t', hrun, h1, h2, h3⟩ :=
      ih { table := t.table.set (digest w % t.size) (w :: t.chain (digest w % t.size)),
           size := t.size } hs (by simpa using hl)
    refine ⟨t', ?_, h1, h2, fun i => ?_⟩
    · rw [insertAll, insert_ok t w hs hl]
      exact hrun
    · rw [h3 i, chain_insert t w i hs hl]
      simp only [List.filter_cons]
      split_ifs with c1 c2 c2
      · simp
      · exact absurd c1 (by simpa using c2)
      · exact absurd (by simpa using c2) c1
      · rfl

theorem searchChain_eq (key : Token) (chain : List Token) :
    searchChain key chain = decide (key ∈ chain) := by
  induction chain with
  | nil => simp [searchChain]
  | cons k next ih =>
    unfold searchChain
    by_cases hk : k = key
    · simp [hk]
    · have : ¬ key = k := fun e => hk e.symm
      simp [hk, ih, this]

theorem search_ok (t : HashTable) (key : Token) (hs : 1 ≤ t.size)
    (hl : t.table.length = t.size) :
    t.search key = .ok (decide (key ∈ t.chain (digest key % t.size))) := by
  have hi : digest key % t.size < t.table.length := by
    rw [hl]; exact Nat.mod_lt _ (by omega)
  unfold HashTable.search HashTable.chain
  rw [hash_ok t key hs]
  simp only [List.getElem?_eq_getElem hi, Option.getD_some, searchChain_eq]

theorem chain_fresh (n i : Nat) :
    HashTable.chain { table := List.replicate n [], size := n } i = [] := by
  unfold HashTable.chain
  simp only [List.getElem?_replicate]
  split_ifs <;> rfl

/-- After the tokens `toks` have gone into a fresh table of `n ≥ 1` buckets, `search`
answers membership in `toks`. -/
theorem search_after_insertAll (n : Nat) (toks : List Token) (hn : 1 ≤ n) :
    ∃ t', insertAll { table := List.replicate n [], size := n } toks = .ok t' ∧
      t'.size = n ∧ ∀ key, t'.search key = .ok (decide (key ∈ toks)) := by
  obtain ⟨t', hrun, h1, h2, h3⟩ :=
    insertAll_spec toks { table := List.replicate n [], size := n } hn (by simp)
  refine ⟨t', hrun, h1, fun key => ?_⟩
  rw [search_ok t' key (by rw [h1]; exact hn) (by rw [h2, h1]), h3, chain_fresh]
  congr 1
  simp only [List.append_nil, List.mem_reverse, List.mem_filter, decide_eq_true_eq, h1,
    and_true]

theorem quickSort_full (v : List Token) (log : List Int) (fuel : Nat)
    (hfuel : 2 * v.length ≤ fuel) :
    ∃ m', quickSort fuel 0 ((v.length : Int) - 1) { vec := v, log := log } = .ok m' ∧
      List.Perm m'.vec v ∧ List.Sorted (· ≤ ·) m'.vec := by
  by_cases hv : v.length = 0
  · have hnil : v = [] := List.length_eq_zero.mp hv
    subst hnil
    exact ⟨_, quickSort_base _ _ _ _ (by simp), List.Perm.refl _, List.sorted_nil⟩
  · have hc : ((v.length : Int) - 1) = ((v.length - 1 : Nat) : Int) := by omega
    obtain ⟨m', hrun, _, q2, _, q4, _⟩ :=
      quickSort_spec fuel 0 (v.length - 1) { vec := v, log := log }
        (by show v.length - 1 < v.length; omega) (Or.inl (by omega))
    refine ⟨m', ?_, q2, ?_⟩
    · rw [hc]; exact hrun
    · have hlen : m'.vec.length ≤ v.length - 1 + 1 := by
        have := q2.length_eq
        simp only [] at this
        omega
      rw [seg_full _ _ hlen] at q4
      exact q4

theorem quickSort_range_spec (m : Mem) (l h : Int) (fuel : Nat) (hl : 0 ≤ l) (hlh : l ≤ h)
    (hh : h < m.vec.length) (hfuel : 2 * (h - l).toNat + 2 ≤ fuel) :
    ∃ m', quickSort fuel l h m = .ok m' ∧ SortPost l.toNat h.toNat m m' := by
  obtain ⟨l', rfl⟩ := Int.eq_ofNat_of_zero_le hl
  obtain ⟨h', rfl⟩ := Int.eq_ofNat_of_zero_le (le_trans hl hlh)
  simp only [Int.toNat_ofNat]
  exact quickSort_spec fuel l' h' m (by omega) (Or.inl (by omega))

/-! ## The pipeline -/

theorem main_empty_first (fuel : Nat) (word : Token) (rest : List Token) :
    main fuel [] (word :: rest) = .error .divByZero := rfl

/-! ## The claims -/

/-- C1: for every finite sequence of strings `v` of length `n` (the empty one
included), the call `quickSort(0, n - 1, v)` returns once the fuel is `2 * n`, and the
vector it leaves is a permutation of `v` in which every adjacent pair is in
non-decreasing lexicographic order. -/
theorem quickSort_sorts_vector (v : List Token) (log : List Int) (fuel : Nat)
    (hfuel : 2 * v.length ≤ fuel) :
    ∃ m', quickSort fuel 0 ((v.length : Int) - 1) { vec := v, log := log } = .ok m' ∧
      List.Perm m'.vec v ∧ List.Chain' (· ≤ ·) m'.vec := by
  obtain ⟨m', h1, h2, h3⟩ := quickSort_full v log fuel hfuel
  exact ⟨m', h1, h2, List.Pairwise.chain' h3⟩

theorem quickSort_sorts_vector_witness :
    2 * ([[3], [1], [2]] : List Token).length ≤ 6 ∧
    ∃ m', quickSort 6 0 ((([[3], [1], [2]] : List Token).length : Int) - 1)
        { vec := [[3], [1], [2]], log := [] } = .ok m' ∧
      List.Perm m'.vec [[3], [1], [2]] ∧ List.Chain' (· ≤ ·) m'.vec :=
  ⟨by decide, quickSort_sorts_vector [[3], [1], [2]] [] 6 (by decide)⟩

/-- C2: for every vector and every in-bounds range `0 ≤ l ≤ h < len`, the recursion
`quickSort(l, h, vec)`, whose left call is on `[l, j]` with the pivot index `j`
included, returns: a recursion depth of `2 * (h - l) + 2` is never exceeded. Ranges of
one element (`h = l`) and of two elements (`h = l + 1`) are instances. -/
theorem quickSort_terminates (m : Mem) (l h : Int) (fuel : Nat) (hl : 0 ≤ l) (hlh : l ≤ h)
    (hh : h < m.vec.length) (hfuel : 2 * (h - l).toNat + 2 ≤ fuel) :
    ∃ m', quickSort fuel l h m = .ok m' := by
  obtain ⟨m', hrun, _⟩ := quickSort_range_spec m l h fuel hl hlh hh hfuel
  exact ⟨m', hrun⟩

theorem quickSort_terminates_witness :
    ∃ m', quickSort 4 0 1 { vec := [[2], [1]], log := [] } = .ok m' :=
  quickSort_terminates { vec := [[2], [1]], log := [] } 0 1 4 (by decide) (by decide)
    (by decide) (by decide)


/-- C3: for every bucket count `B ≥ 1` and every sequence of tokens inserted into a
fresh table of `B` empty chains, every insertion succeeds, and afterwards
`search(t)` returns `true` exactly when `t` is one of the inserted tokens: no false
negative, no false positive. -/
theorem search_iff_inserted (B : Nat) (toks : List Token) (hB : 1 ≤ B) :
    ∃ t', insertAll { table := List.replicate B [], size := B } toks = .ok t' ∧
      ∀ key, t'.search key = .ok (decide (key ∈ toks)) := by
  obtain ⟨t', h1, _, h3⟩ := search_after_insertAll B toks hB
  exact ⟨t', h1, h3⟩

theorem search_iff_inserted_witness :
    1 ≤ 3 ∧
    ∃ t', insertAll { table := List.replicate 3 [], size := 3 } [[97], [98], [97]] = .ok t' ∧
      ∀ key, t'.search key = .ok (decide (key ∈ ([[97], [98], [97]] : List Token))) :=
  ⟨by decide, search_iff_inserted 3 [[97], [98], [97]] (by decide)⟩

/-- C5: with an empty first file and a non-empty second file, `main` does not
complete: the first `search` evaluates `hash % size` with `size = 0`. -/
theorem main_empty_first_file_divides_by_zero (fuel : Nat) (word : Token)
    (rest : List Token) : main fuel [] (word :: rest) = .error .divByZero :=
  main_empty_first fuel word rest

/-- C6: at `expectedCount = 0` the constructor makes a table of zero buckets, since
nothing clamps `size`, and on that table `hash` is a modulo by zero for every
string. -/
theorem construct_zero_has_no_bucket :
    HashTable.construct 0 = .ok { table := [], size := 0 } ∧
      ∀ key : Token, HashTable.hash { table := [], size := 0 } key = .error .divByZero :=
  ⟨by decide, fun _ => rfl⟩

/-- C7: for every vector and every range `0 ≤ low ≤ high < len`, `quickSort(low, high,
vec)` returns, the elements at the positions `low..high` are then in ascending
lexicographic order and are a permutation of the elements that were at those
positions, and every element at a position outside the range is unchanged. -/
theorem quickSort_sorts_range (m : Mem) (l h : Int) (fuel : Nat) (hl : 0 ≤ l) (hlh : l ≤ h)
    (hh : h < m.vec.length) (hfuel : 2 * (h - l).toNat + 2 ≤ fuel) :
    ∃ m', quickSort fuel l h m = .ok m' ∧
      List.Sorted (· ≤ ·) (seg m'.vec l.toNat h.toNat) ∧
      List.Perm (seg m'.vec l.toNat h.toNat) (seg m.vec l.toNat h.toNat) ∧
      m'.vec.length = m.vec.length ∧
      ∀ k : Nat, ((k : Int) < l ∨ h < (k : Int)) → m'.vec[k]? = m.vec[k]? := by
  obtain ⟨m', hrun, q1, q2, q3, q4, _⟩ := quickSort_range_spec m l h fuel hl hlh hh hfuel
  refine ⟨m', hrun, q4, seg_perm_of_frame _ _ _ _ (by omega) q2 q3, q1, ?_⟩
  intro k hk
  exact q3 k (by omega)

theorem quickSort_sorts_range_witness :
    ∃ m', quickSort 6 1 3 { vec := [[9], [3], [1], [2], [0]], log := [] } = .ok m' ∧
      List.Sorted (· ≤ ·) (seg m'.vec (1 : Int).toNat (3 : Int).toNat) ∧
      List.Perm (seg m'.vec (1 : Int).toNat (3 : Int).toNat)
        (seg [[9], [3], [1], [2], [0]] (1 : Int).toNat (3 : Int).toNat) ∧
      m'.vec.length = ([[9], [3], [1], [2], [0]] : List Token).length ∧
      ∀ k : Nat, ((k : Int) < 1 ∨ 3 < (k : Int)) →
        m'.vec[k]? = ([[9], [3], [1], [2], [0]] : List Token)[k]? :=
  quickSort_sorts_range { vec := [[9], [3], [1], [2], [0]], log := [] } 1 3 6 (by decide)
    (by decide) (by decide) (by decide)

/-- C8: for every vector and every `low`, `high` with `high < low` (the empty vector
with `low = 0`, `high = -1` included) or `high = low`, `quickSort(low, high, vec)`
returns at once: the vector is unchanged and no element has been evaluated, the log
of evaluated indices being the same as before the call. -/
theorem quickSort_no_range_noop (fuel : Nat) (l h : Int) (m : Mem) (hlh : h ≤ l) :
    quickSort fuel l h m = .ok m :=
  quickSort_base fuel l h m (by omega)

theorem quickSort_no_range_noop_witness :
    quickSort 0 0 (-1) { vec := [], log := [] } = .ok { vec := [], log := [] } ∧
      quickSort 0 2 2 { vec := [[1], [0]], log := [] } = .ok { vec := [[1], [0]], log := [] } :=
  ⟨quickSort_no_range_noop 0 0 (-1) { vec := [], log := [] } (by decide),
    quickSort_no_range_noop 0 2 2 { vec := [[1], [0]], log := [] } (by decide)⟩

/-- C9: for every string and every bucket count `B ≥ 1`, `hash` returns the digest,
a 64-bit value, reduced modulo `B`, and the index returned lies in `0 ≤ index < B`. -/
theorem hash_in_range (t : HashTable) (key : Token) (hB : 1 ≤ t.size) :
    ∃ i, t.hash key = .ok i ∧ i = digest key % t.size ∧ i < t.size ∧ digest key < 2 ^ 64 :=
  ⟨digest key % t.size, hash_ok t key hB, rfl, Nat.mod_lt _ (by omega), digest_lt key⟩

theorem hash_in_range_witness :
    ∃ i, HashTable.hash { table := [[], []], size := 2 } [97] = .ok i ∧
      i = digest [97] % 2 ∧ i < 2 ∧ digest [97] < 2 ^ 64 :=
  hash_in_range { table := [[], []], size := 2 } [97] (by decide)

/-- C10: for every string the digest computed by `hash` before compression is the
djb2 reference value; each step `(h << 5) + h + c` on 64-bit unsigned arithmetic
equals `(h * 33 + c) mod 2 ^ 64` for every `h` and every byte, a byte from `128` on
counting as `c - 256`; and the digest always stays below `2 ^ 64`. -/
theorem digest_eq_djb2Reference :
    (∀ s : Token, digest s = djb2Reference s) ∧
    (∀ (h : Nat) (b : Byte),
      hashStep h b = (((h : Int) * 33 + signedByteValue b) % (2 : Int) ^ 64).toNat) ∧
    (∀ s : Token, digest s < 2 ^ 64) :=
  ⟨fun s => foldl_hashStep_eq s 5381, hashStep_eq, digest_lt⟩


/-! ## Further facts about the sort -/

theorem quickSort_full_sorted (v : List Token) (log : List Int) (fuel : Nat)
    (hs : List.Sorted (· ≤ ·) v) (hfuel : 2 * v.length ≤ fuel) :
    ∃ m', quickSort fuel 0 ((v.length : Int) - 1) { vec := v, log := log } = .ok m' ∧
      m'.vec = v := by
  obtain ⟨m', h1, h2, h3⟩ := quickSort_full v log fuel hfuel
  exact ⟨m', h1, List.eq_of_perm_of_sorted h2 h3 hs⟩

theorem partition_range_spec (fuel : Nat) (l h : Int) (m : Mem) (hl : 0 ≤ l) (hlh : l < h)
    (hh : h < m.vec.length) (hfuel : (h - l).toNat + 1 ≤ fuel) :
    ∃ (p : Token) (j : Nat) (m' : Mem),
      m.vec[l.toNat]? = some p ∧
      partition fuel l h m = .ok ((j : Int), m') ∧
      l.toNat ≤ j ∧ j ≤ h.toNat ∧ m'.vec.length = m.vec.length ∧ List.Perm m'.vec m.vec ∧
      (∀ k, k < l.toNat ∨ h.toNat < k → m'.vec[k]? = m.vec[k]?) ∧
      m'.vec[j]? = some p ∧
      (∀ k x, l.toNat ≤ k → k < j → m'.vec[k]? = some x → x ≤ p) ∧
      (∀ k x, j < k → k ≤ h.toNat → m'.vec[k]? = some x → p ≤ x) ∧
      LogWithin m m' l.toNat h.toNat ∧
      ((∀ x, m.vec[h.toNat]? = some x → p ≤ x) → j < h.toNat) := by
  obtain ⟨l', rfl⟩ := Int.eq_ofNat_of_zero_le hl
  obtain ⟨h', rfl⟩ := Int.eq_ofNat_of_zero_le (le_trans hl (le_of_lt hlh))
  simp only [Int.toNat_ofNat]
  have hl' : l' < m.vec.length := by omega
  obtain ⟨j, m', r⟩ := partition_spec fuel l' h' m m.vec[l'] (by omega) (by omega) (by omega)
    (List.getElem?_eq_getElem hl')
  exact ⟨m.vec[l'], j, m', List.getElem?_eq_getElem hl', r⟩


theorem logWithin_int {m m' : Mem} {l h : Int} (hl : 0 ≤ l) (hh : 0 ≤ h)
    (a : LogWithin m m' l.toNat h.toNat) :
    ∃ ext : List Int, m'.log = ext ++ m.log ∧ ∀ x ∈ ext, l ≤ x ∧ x ≤ h := by
  obtain ⟨ext, e, g⟩ := a
  refine ⟨ext, e, fun x hx => ?_⟩
  have := g x hx
  omega

theorem partition_twice (fuel : Nat) (l h : Int) (m : Mem) (hl : 0 ≤ l) (hlh : l < h)
    (hh : h < m.vec.length) (hfuel : (h - l).toNat + 1 ≤ fuel) :
    ∃ (j1 : Int) (m1 : Mem), partition fuel l h m = .ok (j1, m1) ∧
      (j1 = h → ∃ (j2 : Int) (m2 : Mem), partition fuel l h m1 = .ok (j2, m2) ∧ j2 < h) := by
  obtain ⟨p, j, m1, _, hrun, a1, a2, a3, _, _, a6, a7, _, _, _⟩ :=
    partition_range_spec fuel l h m hl hlh hh hfuel
  refine ⟨(j : Int), m1, hrun, fun hj => ?_⟩
  have hjh : j = h.toNat := by omega
  obtain ⟨p2, j2, m2, b0, hrun2, _, b2, _, _, _, _, _, _, _, b10⟩ :=
    partition_range_spec fuel l h m1 hl hlh (by rw [a3]; exact hh) hfuel
  refine ⟨(j2 : Int), m2, hrun2, ?_⟩
  have : j2 < h.toNat := by
    apply b10
    intro x hx
    rw [← hjh, a6] at hx
    cases hx
    exact a7 l.toNat p2 (le_refl _) (by omega) b0
  omega

/-- C11: for every sequence of strings `v` in which every adjacent pair is in
non-decreasing lexicographic order, `quickSort` over the full range of `v` returns
and leaves exactly `v`; and for every sequence `w` whatsoever, sorting the sorted
vector a second time leaves it as the first sort left it. -/
theorem quickSort_sorted_is_identity (v : List Token) (log : List Int) (fuel : Nat)
    (hs : List.Chain' (· ≤ ·) v) (hfuel : 2 * v.length ≤ fuel) :
    (∃ m', quickSort fuel 0 ((v.length : Int) - 1) { vec := v, log := log } = .ok m' ∧
      m'.vec = v) ∧
    (∀ w : List Token, 2 * w.length ≤ fuel →
      ∃ m1 m2, quickSort fuel 0 ((w.length : Int) - 1) { vec := w, log := log } = .ok m1 ∧
        quickSort fuel 0 ((m1.vec.length : Int) - 1) m1 = .ok m2 ∧ m2.vec = m1.vec) := by
  refine ⟨quickSort_full_sorted v log fuel (List.chain'_iff_pairwise.mp hs) hfuel, ?_⟩
  intro w hw
  obtain ⟨m1, h1, h2, h3⟩ := quickSort_full w log fuel hw
  obtain ⟨m2, g1, g2⟩ :=
    quickSort_full_sorted m1.vec m1.log fuel h3 (by rw [h2.length_eq]; exact hw)
  exact ⟨m1, m2, h1, g1, g2⟩

theorem quickSort_sorted_is_identity_witness :
    (∃ m', quickSort 6 0 ((([[1], [2], [2]] : List Token).length : Int) - 1)
        { vec := [[1], [2], [2]], log := [] } = .ok m' ∧ m'.vec = [[1], [2], [2]]) ∧
    (∀ w : List Token, 2 * w.length ≤ 6 →
      ∃ m1 m2, quickSort 6 0 ((w.length : Int) - 1) { vec := w, log := [] } = .ok m1 ∧
        quickSort 6 0 ((m1.vec.length : Int) - 1) m1 = .ok m2 ∧ m2.vec = m1.vec) :=
  quickSort_sorted_is_identity [[1], [2], [2]] [] 6
    (List.Pairwise.chain' (by decide)) (by decide)

/-- C14: for every vector and every in-bounds range `0 ≤ l < h < len`,
`partition(l, h, vec)` returns an index `j` with `l ≤ j ≤ h`; afterwards the element
at `j` is the pivot (the element that was at `l`), every element at a position in
`[l, j)` is at most the pivot, every element at a position in `(j, h]` is at least
the pivot, the positions `l..h` hold a permutation of what they held, and every
position outside `[l, h]` holds what it held. -/
theorem partition_postcondition (fuel : Nat) (l h : Int) (m : Mem) (hl : 0 ≤ l)
    (hlh : l < h) (hh : h < m.vec.length) (hfuel : (h - l).toNat + 1 ≤ fuel) :
    ∃ (pivot : Token) (j : Int) (m' : Mem),
      m.vec[l.toNat]? = some pivot ∧ partition fuel l h m = .ok (j, m') ∧
      l ≤ j ∧ j ≤ h ∧ m'.vec[j.toNat]? = some pivot ∧
      (∀ k : Nat, l ≤ (k : Int) → (k : Int) < j → ∀ x, m'.vec[k]? = some x → x ≤ pivot) ∧
      (∀ k : Nat, j < (k : Int) → (k : Int) ≤ h → ∀ x, m'.vec[k]? = some x → pivot ≤ x) ∧
      List.Perm (seg m'.vec l.toNat h.toNat) (seg m.vec l.toNat h.toNat) ∧
      m'.vec.length = m.vec.length ∧
      (∀ k : Nat, ((k : Int) < l ∨ h < (k : Int)) → m'.vec[k]? = m.vec[k]?) := by
  obtain ⟨p, j, m', a0, hrun, a1, a2, a3, a4, a5, a6, a7, a8, _, _⟩ :=
    partition_range_spec fuel l h m hl hlh hh hfuel
  refine ⟨p, (j : Int), m', a0, hrun, by omega, by omega, by simpa using a6, ?_, ?_,
    seg_perm_of_frame _ _ _ _ (by omega) a4 a5, a3, ?_⟩
  · intro k hk1 hk2 x hx
    exact a7 k x (by omega) (by omega) hx
  · intro k hk1 hk2 x hx
    exact a8 k x (by omega) (by omega) hx
  · intro k hk
    exact a5 k (by omega)

theorem partition_postcondition_witness :
    ∃ (pivot : Token) (j : Int) (m' : Mem),
      ([[2], [3], [1], [0]] : List Token)[(0 : Int).toNat]? = some pivot ∧
      partition 4 0 3 { vec := [[2], [3], [1], [0]], log := [] } = .ok (j, m') ∧
      0 ≤ j ∧ j ≤ 3 ∧ m'.vec[j.toNat]? = some pivot ∧
      (∀ k : Nat, 0 ≤ (k : Int) → (k : Int) < j → ∀ x, m'.vec[k]? = some x → x ≤ pivot) ∧
      (∀ k : Nat, j < (k : Int) → (k : Int) ≤ 3 → ∀ x, m'.vec[k]? = some x → pivot ≤ x) ∧
      List.Perm (seg m'.vec (0 : Int).toNat (3 : Int).toNat)
        (seg [[2], [3], [1], [0]] (0 : Int).toNat (3 : Int).toNat) ∧
      m'.vec.length = ([[2], [3], [1], [0]] : List Token).length ∧
      (∀ k : Nat, ((k : Int) < 0 ∨ 3 < (k : Int)) →
        m'.vec[k]? = ([[2], [3], [1], [0]] : List Token)[k]?) :=
  partition_postcondition 4 0 3 { vec := [[2], [3], [1], [0]], log := [] } (by decide)
    (by decide) (by decide) (by decide)

/-- C18: for every vector and every in-bounds range `0 ≤ l < h < len`, `partition(l,
h, vec)` and `quickSort(l, h, vec)` with all its recursive calls complete without an
access outside the vector, and every index at which they evaluate an element lies in
`[l, h]`: the indices they add to the log are all between `l` and `h`. The index
returned by `partition`, used by its final swap, lies in `[l, h]` as well. -/
theorem sort_accesses_within_range (fuel : Nat) (l h : Int) (m : Mem) (hl : 0 ≤ l)
    (hlh : l < h) (hh : h < m.vec.length) (hfuel : 2 * (h - l).toNat + 2 ≤ fuel) :
    (∃ (j : Int) (m' : Mem) (ext : List Int), partition fuel l h m = .ok (j, m') ∧
      l ≤ j ∧ j ≤ h ∧ m'.log = ext ++ m.log ∧ ∀ x ∈ ext, l ≤ x ∧ x ≤ h) ∧
    (∃ (m' : Mem) (ext : List Int), quickSort fuel l h m = .ok m' ∧
      m'.log = ext ++ m.log ∧ ∀ x ∈ ext, l ≤ x ∧ x ≤ h) := by
  constructor
  · obtain ⟨p, j, m', _, hrun, a1, a2, _, _, _, _, _, _, a9, _⟩ :=
      partition_range_spec fuel l h m hl hlh hh (by omega)
    obtain ⟨ext, e, g⟩ := logWithin_int hl (by omega) a9
    exact ⟨(j : Int), m', ext, hrun, by omega, by omega, e, g⟩
  · obtain ⟨m', hrun, _, _, _, _, q5⟩ :=
      quickSort_range_spec m l h fuel hl (le_of_lt hlh) hh hfuel
    obtain ⟨ext, e, g⟩ := logWithin_int hl (by omega) q5
    exact ⟨m', ext, hrun, e, g⟩

theorem sort_accesses_within_range_witness :
    (∃ (j : Int) (m' : Mem) (ext : List Int),
      partition 6 1 3 { vec := [[9], [3], [1], [2], [0]], log := [] } = .ok (j, m') ∧
      1 ≤ j ∧ j ≤ 3 ∧ m'.log = ext ++ [] ∧ ∀ x ∈ ext, 1 ≤ x ∧ x ≤ 3) ∧
    (∃ (m' : Mem) (ext : List Int),
      quickSort 6 1 3 { vec := [[9], [3], [1], [2], [0]], log := [] } = .ok m' ∧
      m'.log = ext ++ [] ∧ ∀ x ∈ ext, 1 ≤ x ∧ x ≤ 3) :=
  sort_accesses_within_range 6 1 3 { vec := [[9], [3], [1], [2], [0]], log := [] }
    (by decide) (by decide) (by decide) (by decide)

theorem topMax_example : TopMax [[1], [2]] (0 : Int).toNat (1 : Int).toNat := by
  intro k x y _ hk hx hy
  have hk1 : k ≤ 1 := hk
  have hy1 : y = [2] := by simpa using hy.symm
  interval_cases k
  · have hx1 : x = [1] := by simpa using hx.symm
    subst hx1 hy1; decide
  · have hx1 : x = [2] := by simpa using hx.symm
    subst hx1 hy1; decide

/-- C20: for every vector and every in-bounds range `0 ≤ l < h < len`, if the element
at `h` is at least every element at the positions `l..h`, then `partition(l, h, vec)`
returns an index strictly below `h`; and whenever `partition(l, h, vec)` returns `h`,
the next `partition` of the same range returns an index strictly below `h`. -/
theorem partition_makes_progress (fuel : Nat) (l h : Int) (m : Mem) (hl : 0 ≤ l)
    (hlh : l < h) (hh : h < m.vec.length) (hfuel : (h - l).toNat + 1 ≤ fuel) :
    (TopMax m.vec l.toNat h.toNat →
      ∃ (j : Int) (m' : Mem), partition fuel l h m = .ok (j, m') ∧ j < h) ∧
    (∃ (j1 : Int) (m1 : Mem), partition fuel l h m = .ok (j1, m1) ∧
      (j1 = h → ∃ (j2 : Int) (m2 : Mem), partition fuel l h m1 = .ok (j2, m2) ∧ j2 < h)) := by
  refine ⟨fun ht => ?_, partition_twice fuel l h m hl hlh hh hfuel⟩
  obtain ⟨p, j, m', a0, hrun, _, _, _, _, _, _, _, _, _, a10⟩ :=
    partition_range_spec fuel l h m hl hlh hh hfuel
  have : j < h.toNat := by
    apply a10
    intro x hx
    exact ht l.toNat p x (le_refl _) (by omega) a0 hx
  exact ⟨(j : Int), m', hrun, by omega⟩

theorem partition_makes_progress_witness :
    (∃ (j : Int) (m' : Mem),
      partition 2 0 1 { vec := [[1], [2]], log := [] } = .ok (j, m') ∧ j < 1) ∧
    (∃ (j1 : Int) (m1 : Mem),
      partition 2 0 1 { vec := [[2], [1]], log := [] } = .ok (j1, m1) ∧
      (j1 = 1 → ∃ (j2 : Int) (m2 : Mem), partition 2 0 1 m1 = .ok (j2, m2) ∧ j2 < 1)) :=
  ⟨(partition_makes_progress 2 0 1 { vec := [[1], [2]], log := [] } (by decide) (by decide)
      (by decide) (by decide)).1 topMax_example,
    (partition_makes_progress 2 0 1 { vec := [[2], [1]], log := [] } (by decide) (by decide)
      (by decide) (by decide)).2⟩

/-! ## Further facts about the table -/

theorem insert_size (t : HashTable) (key : Token) (t' : HashTable)
    (h : t.insert key = .ok t') : t'.size = t.size ∧ t'.table.length = t.table.length := by
  unfold HashTable.insert at h
  split at h
  · cases h
  · split at h
    · cases h
    · split at h <;> (cases h; simp)

theorem insertAll_size (toks : List Token) :
    ∀ (t t' : HashTable), insertAll t toks = .ok t' →
      t'.size = t.size ∧ t'.table.length = t.table.length := by
  induction toks with
  | nil => intro t t' h; cases h; exact ⟨rfl, rfl⟩
  | cons w ws ih =>
    intro t t' h
    rw [insertAll] at h
    split at h
    · cases h
    · rename_i t1 h1
      have a := insert_size t w t1 h1
      have b := ih t1 t' h
      exact ⟨b.1.trans a.1, b.2.trans a.2⟩

theorem sum_length_set (l : List (List Token)) :
    ∀ (i : Nat) (x : List Token) (hi : i < l.length),
      ((l.set i x).map List.length).sum + l[i].length =
        (l.map List.length).sum + x.length := by
  induction l with
  | nil => intro i x hi; simp at hi
  | cons c cs ih =>
    intro i x hi
    cases i with
    | zero => simp; omega
    | succ i =>
      have := ih i x (by simpa using hi)
      simp only [List.set_cons_succ, List.map_cons, List.sum_cons, List.getElem_cons_succ]
      omega

theorem entries_insert (t : HashTable) (key : Token) (hs : 1 ≤ t.size)
    (hl : t.table.length = t.size) :
    HashTable.entries
        { table := t.table.set (digest key % t.size) (key :: t.chain (digest key % t.size)),
          size := t.size } = t.entries + 1 := by
  have hi : digest key % t.size < t.table.length := by
    rw [hl]; exact Nat.mod_lt _ (by omega)
  have := sum_length_set t.table (digest key % t.size)
    (key :: t.chain (digest key % t.size)) hi
  unfold HashTable.entries
  unfold HashTable.chain at this ⊢
  simp only [List.getElem?_eq_getElem hi, Option.getD_some, List.length_cons] at this ⊢
  omega

theorem insertAll_entries (toks : List Token) :
    ∀ t : HashTable, 1 ≤ t.size → t.table.length = t.size →
      ∃ t', insertAll t toks = .ok t' ∧ t'.entries = t.entries + toks.length := by
  induction toks with
  | nil => intro t _ _; exact ⟨t, rfl, rfl⟩
  | cons w ws ih =>
    intro t hs hl
    obtain ⟨t', hrun, h1⟩ :=
      ih { table := t.table.set (digest w % t.size) (w :: t.chain (digest w % t.size)),
           size := t.size } hs (by simpa using hl)
    refine ⟨t', ?_, ?_⟩
    · rw [insertAll, insert_ok t w hs hl]
      exact hrun
    · rw [h1, entries_insert t w hs hl, List.length_cons]
      omega

theorem entries_fresh (n : Nat) :
    HashTable.entries { table := List.replicate n [], size := n } = 0 := by
  unfold HashTable.entries
  simp


/-! ## The sort never divides -/

theorem roundToFloat_exact (n : Nat) (hn : n ≤ 2 ^ 24) : roundToFloat n = n := by
  rcases Nat.lt_or_ge n (2 ^ 24) with h | h
  · exact roundToFloat_small n h
  · have : n = 2 ^ 24 := le_antisymm hn h
    subst this
    decide

theorem chain_after_insertAll (B : Nat) (toks : List Token) (hB : 1 ≤ B) :
    ∃ t', insertAll { table := List.replicate B [], size := B } toks = .ok t' ∧
      t'.size = B ∧ t'.table.length = B ∧ t'.entries = toks.length ∧
      ∀ i, t'.chain i = (toks.filter (fun w => decide (digest w % B = i))).reverse := by
  obtain ⟨t', hrun, h1, h2, h3⟩ :=
    insertAll_spec toks { table := List.replicate B [], size := B } hB (by simp)
  obtain ⟨t2, hrun2, h4⟩ :=
    insertAll_entries toks { table := List.replicate B [], size := B } hB (by simp)
  have e : t2 = t' := by
    have := hrun2.symm.trans hrun
    exact Except.ok.inj this
  subst e
  refine ⟨t2, hrun, h1, h2, ?_, fun i => ?_⟩
  · rw [h4, entries_fresh]; omega
  · rw [h3 i, chain_fresh]; simp

/-- C12, as stated, fails at `N = 16777217`: the `float` nearest to this count is
`16777216`, and the constructor makes `33554432` buckets, not `2 * N`. -/
theorem construct_rounds_large_count :
    ∃ t, HashTable.construct 16777217 = .ok t ∧ t.size = 33554432 ∧
      t.size ≠ 2 * 16777217 :=
  ⟨_, construct_ok 16777217 (by decide), by decide, by decide⟩

/-- C12, amended: for every `N ≤ 2 ^ 24` the constructor with load factor `0.5` makes
the table of exactly `B = 2 * N` chains, all empty, `2 * N` being both the ceiling
and the floor of `N / 0.5`; and no `insert` changes the bucket count or the number
of chains, so `B` stays `2 * N` through every sequence of inserts (`search` yields a
truth value and no table). -/
theorem construct_bucket_count (N : Nat) (hN : N ≤ 2 ^ 24) :
    HashTable.construct N = .ok { table := List.replicate (2 * N) [], size := 2 * N } ∧
    Nat.ceil ((N : Rat) / (1 / 2)) = 2 * N ∧ Nat.floor ((N : Rat) / (1 / 2)) = 2 * N ∧
    (∀ (t : HashTable) (key : Token) (t' : HashTable), t.insert key = .ok t' →
      t'.size = t.size ∧ t'.table.length = t.table.length) ∧
    (∀ (toks : List Token) (t' : HashTable),
      insertAll { table := List.replicate (2 * N) [], size := 2 * N } toks = .ok t' →
      t'.size = 2 * N ∧ t'.table.length = 2 * N) := by
  have hr := roundToFloat_exact N hN
  have hq : (N : Rat) / (1 / 2) = ((2 * N : Nat) : Rat) := by
    push_cast; ring
  have hc := construct_of_lt N (by omega)
  rw [hr] at hc
  refine ⟨hc, ?_, ?_, insert_size, ?_⟩
  · rw [hq, Nat.ceil_natCast]
  · rw [hq, Nat.floor_natCast]
  · intro toks t' h
    have := insertAll_size toks _ t' h
    simpa using this

theorem construct_bucket_count_witness :
    HashTable.construct 3 = .ok { table := List.replicate (2 * 3) [], size := 2 * 3 } ∧
    Nat.ceil (((3 : Nat) : Rat) / (1 / 2)) = 2 * 3 ∧
    Nat.floor (((3 : Nat) : Rat) / (1 / 2)) = 2 * 3 ∧
    (∀ (t : HashTable) (key : Token) (t' : HashTable), t.insert key = .ok t' →
      t'.size = t.size ∧ t'.table.length = t.table.length) ∧
    (∀ (toks : List Token) (t' : HashTable),
      insertAll { table := List.replicate (2 * 3) [], size := 2 * 3 } toks = .ok t' →
      t'.size = 2 * 3 ∧ t'.table.length = 2 * 3) :=
  construct_bucket_count 3 (by decide)

/-- C13: for every `B ≥ 1` and every sequence of tokens inserted into a fresh table of
`B` chains, every token stored in the chain of bucket `k` is an inserted token whose
`hash` is `k`, and every inserted token is stored in the chain of the bucket `hash`
gives it and in no other chain. -/
theorem bucket_placement (B : Nat) (toks : List Token) (hB : 1 ≤ B) :
    ∃ t', insertAll { table := List.replicate B [], size := B } toks = .ok t' ∧
      t'.size = B ∧
      (∀ (k : Nat) (w : Token), w ∈ t'.chain k → t'.hash w = .ok k ∧ w ∈ toks) ∧
      (∀ w : Token, w ∈ toks →
        t'.hash w = .ok (digest w % B) ∧ w ∈ t'.chain (digest w % B) ∧
        ∀ k, w ∈ t'.chain k → k = digest w % B) := by
  obtain ⟨t', hrun, h1, _, _, h4⟩ := chain_after_insertAll B toks hB
  have hhash : ∀ w, t'.hash w = .ok (digest w % B) := by
    intro w
    rw [hash_ok t' w (by omega), h1]
  refine ⟨t', hrun, h1, ?_, ?_⟩
  · intro k w hw
    rw [h4 k] at hw
    simp only [List.mem_reverse, List.mem_filter, decide_eq_true_eq] at hw
    rw [hhash w, hw.2]
    exact ⟨rfl, hw.1⟩
  · intro w hw
    refine ⟨hhash w, ?_, ?_⟩
    · rw [h4]
      simp only [List.mem_reverse, List.mem_filter, decide_eq_true_eq]
      exact ⟨hw, trivial⟩
    · intro k hk
      rw [h4 k] at hk
      simp only [List.mem_reverse, List.mem_filter, decide_eq_true_eq] at hk
      exact hk.2.symm

theorem bucket_placement_witness :
    ∃ t', insertAll { table := List.replicate 2 [], size := 2 } [[97], [98], [97]] = .ok t' ∧
      t'.size = 2 ∧
      (∀ (k : Nat) (w : Token), w ∈ t'.chain k →
        t'.hash w = .ok k ∧ w ∈ ([[97], [98], [97]] : List Token)) ∧
      (∀ w : Token, w ∈ ([[97], [98], [97]] : List Token) →
        t'.hash w = .ok (digest w % 2) ∧ w ∈ t'.chain (digest w % 2) ∧
        ∀ k, w ∈ t'.chain k → k = digest w % 2) :=
  bucket_placement 2 [[97], [98], [97]] (by decide)

/-- C15: for every table with `B ≥ 1` buckets (one chain per bucket) and every token,
`insert` succeeds and puts the token in front of the chain of the bucket `hash`
gives it, whatever that chain holds (no duplicate check); every other chain, the
bucket count and the number of chains are unchanged. -/
theorem insert_prepends (t : HashTable) (key : Token) (hB : 1 ≤ t.size)
    (hl : t.table.length = t.size) :
    ∃ t', t.insert key = .ok t' ∧ t.hash key = .ok (digest key % t.size) ∧
      t'.chain (digest key % t.size) = key :: t.chain (digest key % t.size) ∧
      (∀ i, i ≠ digest key % t.size → t'.chain i = t.chain i) ∧
      t'.size = t.size ∧ t'.table.length = t.table.length := by
  refine ⟨_, insert_ok t key hB hl, hash_ok t key hB, ?_, ?_, rfl, by simp⟩
  · rw [chain_insert t key _ hB hl, if_pos rfl]
  · intro i hi
    rw [chain_insert t key i hB hl, if_neg (fun e => hi e.symm)]

theorem insert_prepends_witness :
    ∃ t', HashTable.insert { table := [[[97]], []], size := 2 } [97] = .ok t' ∧
      HashTable.hash { table := [[[97]], []], size := 2 } [97] = .ok (digest [97] % 2) ∧
      t'.chain (digest [97] % 2) =
        [97] :: HashTable.chain { table := [[[97]], []], size := 2 } (digest [97] % 2) ∧
      (∀ i, i ≠ digest [97] % 2 →
        t'.chain i = HashTable.chain { table := [[[97]], []], size := 2 } i) ∧
      t'.size = 2 ∧ t'.table.length = ([[[97]], []] : List (List Token)).length :=
  insert_prepends { table := [[[97]], []], size := 2 } [97] (by decide) (by decide)


/-- C16: for every `B ≥ 1`, after any sequence of `k` inserts into a fresh table the
chains hold exactly `k` nodes in all, duplicates included; and for every token `w`,
inserting `w` twice leaves the two nodes `w, w` in its chain where inserting it once
leaves one, while `search` answers every query the same in both tables. -/
theorem insert_not_idempotent (B : Nat) (toks : List Token) (hB : 1 ≤ B) :
    (∃ t', insertAll { table := List.replicate B [], size := B } toks = .ok t' ∧
      t'.entries = toks.length) ∧
    (∀ w : Token, ∃ t1 t2,
      insertAll { table := List.replicate B [], size := B } [w] = .ok t1 ∧
      insertAll { table := List.replicate B [], size := B } [w, w] = .ok t2 ∧
      t1.insert w = .ok t2 ∧
      t1.chain (digest w % B) = [w] ∧ t2.chain (digest w % B) = [w, w] ∧
      t1.entries = 1 ∧ t2.entries = 2 ∧ t1 ≠ t2 ∧
      ∀ key, t2.search key = t1.search key) := by
  constructor
  · obtain ⟨t', hrun, _, _, h3, _⟩ := chain_after_insertAll B toks hB
    exact ⟨t', hrun, h3⟩
  · intro w
    obtain ⟨t1, hrun1, a1, a2, a3, a4⟩ := chain_after_insertAll B [w] hB
    obtain ⟨t2, hrun2, _, _, b3, b4⟩ := chain_after_insertAll B [w, w] hB
    obtain ⟨s1, hs1, _, hq1⟩ := search_after_insertAll B [w] hB
    obtain ⟨s2, hs2, _, hq2⟩ := search_after_insertAll B [w, w] hB
    have e1 : s1 = t1 := Except.ok.inj (hs1.symm.trans hrun1)
    have e2 : s2 = t2 := Except.ok.inj (hs2.symm.trans hrun2)
    subst e1 e2
    have hstep : s1.insert w = .ok s2 := by
      have h := hrun2
      rw [insertAll] at h
      have h1 := hrun1
      rw [insertAll] at h1
      split at h1
      · cases h1
      · rename_i u hu
        rw [insertAll] at h1
        cases h1
        rw [hu] at h
        simp only [] at h
        rw [insertAll] at h
        split at h
        · cases h
        · rename_i u2 hu2
          rw [insertAll] at h
          cases h
          exact hu2
    have c1 : s1.chain (digest w % B) = [w] := by rw [a4]; simp
    have c2 : s2.chain (digest w % B) = [w, w] := by rw [b4]; simp
    refine ⟨s1, s2, hrun1, hrun2, hstep, c1, c2, a3, b3, ?_, ?_⟩
    · intro e
      rw [e, c2] at c1
      simp at c1
    · intro key
      rw [hq1, hq2]
      simp

theorem insert_not_idempotent_witness :
    (∃ t', insertAll { table := List.replicate 2 [], size := 2 } [[97], [98], [97]] = .ok t' ∧
      t'.entries = ([[97], [98], [97]] : List Token).length) ∧
    (∀ w : Token, ∃ t1 t2,
      insertAll { table := List.replicate 2 [], size := 2 } [w] = .ok t1 ∧
      insertAll { table := List.replicate 2 [], size := 2 } [w, w] = .ok t2 ∧
      t1.insert w = .ok t2 ∧
      t1.chain (digest w % 2) = [w] ∧ t2.chain (digest w % 2) = [w, w] ∧
      t1.entries = 1 ∧ t2.entries = 2 ∧ t1 ≠ t2 ∧
      ∀ key, t2.search key = t1.search key) :=
  insert_not_idempotent 2 [[97], [98], [97]] (by decide)

end CustomHashAndSort
